import Mathlib

/-
Verification of the partial-application substrate, the auto-curry engine,
the partition helper and the deep-immutability freezer of the lamb library
(src/src/array.js, src/src/array_basics.js, src/src/object.js), via a
shallow embedding in Lean.
-/


/-- A JavaScript value as seen by the partial-application machinery.
The lamb object itself is used as the placeholder and is compared with
strict equality, so it is modelled as a dedicated identity-comparable
constructor; other objects are modelled by an identity number. -/
inductive JSVal where
  | undefined
  | nullv
  | boolean (b : Bool)
  | number (n : Int)
  | string (s : String)
  | objRef (id : Nat)
  | placeholder
  deriving DecidableEq, Repr

/-- The loop body of the inner function built by the JS function for partial
application (array.js lines 1074-1089): scan the bound arguments, replacing
each occurrence of the placeholder by the runtime argument at index
lastIdx (undefined when the index is out of range, as in JS), then append
the runtime arguments from lastIdx on. -/
def substSlots : List JSVal → List JSVal → Nat → List JSVal
  | [], callArgs, lastIdx => callArgs.drop lastIdx
  | b :: bs, callArgs, lastIdx =>
      if b = JSVal.placeholder then
        (callArgs[lastIdx]?.getD JSVal.undefined) :: substSlots bs callArgs (lastIdx + 1)
      else
        b :: substSlots bs callArgs lastIdx

/-- The final argument vector computed by one invocation of a partially
applied function: bound slots are scanned starting with lastIdx = 0. -/
def finalArgs (boundArgs callArgs : List JSVal) : List JSVal :=
  substSlots boundArgs callArgs 0

/-- Embedding of the JS partial-application builder from array.js
(the source name is a Lean keyword): it captures the argument tail as the
bound slots and, on each call, invokes the wrapped function with the
freshly computed final argument vector. -/
def papply (fn : List JSVal → JSVal) (boundArgs : List JSVal) : List JSVal → JSVal :=
  fun callArgs => fn (finalArgs boundArgs callArgs)

/-- The final-vector construction as worded by the spec (section 4.1):
scan bound slots left to right, copy a concrete slot verbatim, replace a
placeholder slot by the next unconsumed runtime argument, and append the
remaining unconsumed runtime arguments at the end. Only used to compare
the code with the spec. -/
def specFinalVector : List JSVal → List JSVal → List JSVal
  | [], runtimeArgs => runtimeArgs
  | s :: ss, runtimeArgs =>
      if s = JSVal.placeholder then
        runtimeArgs.headD JSVal.undefined :: specFinalVector ss (runtimeArgs.drop 1)
      else
        s :: specFinalVector ss runtimeArgs

/-- Number of placeholder occurrences among the first j bound slots. -/
def phBefore (bs : List JSVal) (j : Nat) : Nat :=
  ((bs.take j).filter (fun v => v = JSVal.placeholder)).length

/-- Embedding of the loop of the JS partition function
(array.js lines 569-579): each element is pushed onto the first list when
the predicate, called with the element, its index and the whole array-like,
returns a truthy value, and onto the second list otherwise. The JS truthy
test is abstracted as a Bool-valued predicate. -/
def partitionGo (pred : α → Nat → List α → Bool) (whole : List α) :
    List α → Nat → List α × List α
  | [], _ => ([], [])
  | x :: xs, i =>
      let r := partitionGo pred whole xs (i + 1)
      if pred x i whole then (x :: r.1, r.2) else (r.1, x :: r.2)

/-- Embedding of the JS partition function: the loop starts at index 0 and
the predicate receives the input itself as its third argument. -/
def partitionJS (arrayLike : List α) (pred : α → Nat → List α → Bool) :
    List α × List α :=
  partitionGo pred arrayLike arrayLike 0

/-- Modelled from the spec: the auto-curry engine (curry and the internal
curry helper are not part of the sources given, only their callers are).
One call of a curried function with target arity, strict flag and the
arguments accumulated so far: the new arguments are appended to the
accumulator; if the total overshoots the arity, strict mode signals an
arity mismatch while non-strict mode invokes the function with all
accumulated arguments (the first arity ones plus the trailing extras);
an exact match invokes the function; an undershoot returns a new curried
function holding the longer accumulator. -/
inductive CurryOutcome where
  | invoked (result : JSVal)
  | curried (acc : List JSVal)
  | arityMismatch
  deriving DecidableEq, Repr

/-- Modelled from the spec: a single call step of the auto-curry engine,
see the comment on CurryOutcome. -/
def curryCall (fn : List JSVal → JSVal) (arity : Nat) (strict : Bool)
    (acc call : List JSVal) : CurryOutcome :=
  let acc' := acc ++ call
  if arity < acc'.length then
    if strict then CurryOutcome.arityMismatch else CurryOutcome.invoked (fn acc')
  else if acc'.length = arity then
    CurryOutcome.invoked (fn acc')
  else
    CurryOutcome.curried acc'

/-- A JavaScript value as seen by the deep-immutability freezer
(object.js): undefined (typeof is not object), null (typeof is object but
isNull holds), any other primitive (number, string, boolean), or a
reference to a heap node carrying an identity. -/
inductive HVal where
  | undef
  | nullv
  | prim
  | ref (id : Nat)
  deriving DecidableEq, Repr

/-- One own property of a heap node: its key, its enumerable attribute and
its value. Object.getOwnPropertyNames lists enumerable and non-enumerable
own properties alike, so the traversal never consults the attribute; it is
kept to express claims about enumerability. -/
structure HProp where
  key : String
  enumerable : Bool
  value : HVal
  deriving DecidableEq, Repr

/-- A heap node: whether it is a function (typeof gives function rather
than object), whether Object.freeze has been applied to it, and its own
properties in enumeration order. -/
structure HNode where
  isFunc : Bool
  frozen : Bool
  props : List HProp
  deriving DecidableEq, Repr

/-- The heap: nodes indexed by their identity. The traversal only ever
flips frozen flags, never the shape. -/
abbrev Heap := List HNode

/-- Object.freeze on the node with the given identity. -/
def setFrozen (heap : Heap) (id : Nat) : Heap :=
  match heap[id]? with
  | some n => heap.set id { n with frozen := true }
  | none => heap

/-- The recursion guard of the traversal (object.js line 9): a property
value is descended into exactly when typeof gives object and it is not
null, i.e. when it is a reference to a non-function node; the result is
the identity of that node. -/
def eligible (heap : Heap) (v : HVal) : Option Nat :=
  match v with
  | HVal.ref i =>
      match heap[i]? with
      | some n => if n.isFunc then none else some i
      | none => none
  | _ => none

/-- The forEach loop over the own property values of a node being frozen
(object.js lines 5-11), parameterised by the recursive call: eligible
values are processed in order, threading the heap and the seen list. -/
def immuVals (step : Heap → List Nat → Nat → Option (Heap × List Nat)) :
    Heap → List Nat → List HVal → Option (Heap × List Nat)
  | heap, seen, [] => some (heap, seen)
  | heap, seen, v :: vs =>
      match eligible heap v with
      | some i =>
          match step heap seen i with
          | some (h, s) => immuVals step h s vs
          | none => none
      | none => immuVals step heap seen vs

/-- Embedding of the internal recursive freezer of object.js (lines 1-15):
if the object is already in the seen list nothing happens, otherwise it is
frozen, appended to seen (seen.push runs before the recursion) and its own
property values are traversed. The JS recursion is bounded by the growth
of the seen list; the embedding makes that bound explicit through a fuel
parameter, and the fuel theorems show a fuel of heap size plus one always
suffices. -/
def immuStep : Nat → Heap → List Nat → Nat → Option (Heap × List Nat)
  | 0, _, _, _ => none
  | fuel + 1, heap, seen, id =>
      if id ∈ seen then some (heap, seen)
      else
        match heap[id]? with
        | none => some (heap, seen)
        | some n =>
            immuVals (immuStep fuel) (setFrozen heap id) (seen ++ [id])
              (n.props.map HProp.value)

/-- One whole invocation of the freezer on an object root: the seen list
starts empty and the fuel is the heap size plus one. Returns the final
heap together with the seen list built by the traversal. -/
def immutableRun (heap : Heap) (root : Nat) : Option (Heap × List Nat) :=
  immuStep (heap.length + 1) heap [] root

/-- Embedding of the public immutable function of object.js (lines
384-386) applied to an arbitrary value, following ES2015 host semantics:
Object.freeze returns a non-object argument unchanged, and
Object.getOwnPropertyNames throws a TypeError (modelled as none) exactly
on null and undefined; on any other primitive the call is a no-op. The
returned value is always the argument itself. -/
def immutableVal (heap : Heap) (v : HVal) : Option (Heap × HVal) :=
  match v with
  | HVal.undef => none
  | HVal.nullv => none
  | HVal.prim => some (heap, HVal.prim)
  | HVal.ref id => (immutableRun heap id).map (fun r => (r.1, HVal.ref id))

/-- The frozen flag of the node with the given identity. -/
def frozenAt (heap : Heap) (id : Nat) : Bool :=
  match heap[id]? with
  | some n => n.frozen
  | none => false

/-- A value respects a heap size when any reference it holds is in range. -/
def refInRange (len : Nat) : HVal → Bool
  | HVal.ref i => i < len
  | _ => true

/-- Well-formed heap: every reference stored in a property is in range. -/
def WFHeap (heap : Heap) : Prop :=
  ∀ n ∈ heap, ∀ p ∈ n.props, refInRange heap.length p.value = true

instance : DecidablePred WFHeap := fun heap =>
  inferInstanceAs (Decidable (∀ n ∈ heap, ∀ p ∈ n.props, refInRange heap.length p.value = true))

/-- The set of identities the traversal started at root processes: the
root itself, and, for every processed node, every own property value that
the recursion guard lets through. -/
inductive Processed (heap : Heap) (root : Nat) : Nat → Prop
  | base : Processed heap root root
  | step {j i : Nat} {n : HNode} {p : HProp} :
      Processed heap root j → heap[j]? = some n → p ∈ n.props →
      eligible heap p.value = some i → Processed heap root i

/-- A set of identities closed under the recursion guard: every eligible
own property value of a member is a member. -/
def ClosedUnder (heap : Heap) (R : Nat → Prop) : Prop :=
  ∀ j, R j → ∀ n, heap[j]? = some n → ∀ p ∈ n.props, ∀ i,
    eligible heap p.value = some i → R i

/-- Every identity newly appended to the seen list during a traversal
fragment has all its eligible own property values in the final list. -/
def NewClosed (heap : Heap) (seen s : List Nat) : Prop :=
  ∀ k ∈ s, k ∉ seen → ∀ n, heap[k]? = some n → ∀ p ∈ n.props, ∀ i,
    eligible heap p.value = some i → i ∈ s

/-- Postcondition relating the state before and after a traversal
fragment: the seen list is extended, the heap changes exactly by setting
the frozen flag of the newly seen identities, the new seen list has no
duplicates and stays within the heap. -/
structure TravPost (heap : Heap) (seen : List Nat) (h : Heap) (s : List Nat) : Prop where
  ext : ∃ new, s = seen ++ new
  heapEq : ∀ k, h[k]? = (heap[k]?).map
      (fun n => if k ∈ s ∧ k ∉ seen then { n with frozen := true } else n)
  nodup : s.Nodup
  bound : ∀ j ∈ s, j < heap.length

/-- The heap produced by one whole invocation of the freezer. -/
def immutableHeap (heap : Heap) (root : Nat) : Option Heap :=
  (immutableRun heap root).map Prod.fst

/-- A one-node heap whose single node references itself: the object x with
x.self = x from the spec. -/
def cycHeap : Heap := [⟨false, false, [⟨"self", true, HVal.ref 0⟩]⟩]

/-- A heap whose root reaches node 1 only through a non-enumerable own
property. -/
def hiddenHeap : Heap :=
  [⟨false, false, [⟨"hidden", false, HVal.ref 1⟩]⟩, ⟨false, false, []⟩]

/-- A heap whose root has a single enumerable property holding a function
node. -/
def fnPropHeap : Heap :=
  [⟨false, false, [⟨"m", true, HVal.ref 1⟩]⟩, ⟨true, false, []⟩]

/-- Whether the node at an identity is a function (vacuously true when the
identity is out of range). -/
def isFuncAt (heap : Heap) (k : Nat) : Bool :=
  match heap[k]? with
  | some n => n.isFunc
  | none => true

theorem drop_headD (cs : List JSVal) (i : Nat) :
    (cs.drop i).headD JSVal.undefined = cs[i]?.getD JSVal.undefined := by
  induction cs generalizing i with
  | nil => cases i <;> rfl
  | cons c cs ih =>
      cases i with
      | zero => simp
      | succ i =>
          simp only [List.drop_succ_cons, List.getElem?_cons_succ]
          exact ih i

theorem substSlots_eq_spec (bs cs : List JSVal) (i : Nat) :
    substSlots bs cs i = specFinalVector bs (cs.drop i) := by
  induction bs generalizing i with
  | nil => rfl
  | cons b bs ih =>
      by_cases hb : b = JSVal.placeholder
      · have h1 : cs.drop (i + 1) = (cs.drop i).drop 1 := by
          rw [List.drop_drop, Nat.add_comm]
        rw [substSlots, specFinalVector, if_pos hb, if_pos hb, ih (i + 1), h1,
          drop_headD]
      · rw [substSlots, specFinalVector, if_neg hb, if_neg hb, ih i]

theorem finalArgs_eq_spec (bs cs : List JSVal) :
    finalArgs bs cs = specFinalVector bs cs := by
  simpa using substSlots_eq_spec bs cs 0

/-- C1: for every function, bound-slot list and runtime argument list, the
partially applied function invokes the wrapped function with exactly the
vector described by the spec (concrete slots verbatim, placeholder slots
filled left to right from the runtime arguments, leftovers appended); in
particular the two quoted identities hold for non-placeholder values. -/
theorem partial_builds_spec_vector :
    (∀ (fn : List JSVal → JSVal) (bs cs : List JSVal),
        papply fn bs cs = fn (specFinalVector bs cs)) ∧
    (∀ (fn : List JSVal → JSVal) (a b : JSVal), a ≠ JSVal.placeholder →
        papply fn [a, JSVal.placeholder] [b] = fn [a, b]) ∧
    (∀ (fn : List JSVal → JSVal) (a b c : JSVal), b ≠ JSVal.placeholder →
        papply fn [JSVal.placeholder, b] [a, c] = fn [a, b, c]) := by
  refine ⟨fun fn bs cs => by rw [papply, finalArgs_eq_spec], ?_, ?_⟩
  · intro fn a b ha
    simp [papply, finalArgs, substSlots, ha]
  · intro fn a b c hb
    simp [papply, finalArgs, substSlots, hb]

/-- Witness for C1: the two identities evaluated at concrete values. -/
theorem partial_builds_spec_vector_witness :
    JSVal.number 1 ≠ JSVal.placeholder ∧
    papply (fun l => JSVal.number l.length) [JSVal.number 1, JSVal.placeholder]
        [JSVal.number 2]
      = (fun l => JSVal.number l.length) [JSVal.number 1, JSVal.number 2] :=
  ⟨by decide,
   partial_builds_spec_vector.2.1 (fun l => JSVal.number l.length)
     (JSVal.number 1) (JSVal.number 2) (by decide)⟩

theorem substSlots_get_undefined (bs cs : List JSVal) (i j : Nat)
    (hj : bs[j]? = some JSVal.placeholder)
    (hlen : cs.length ≤ i + phBefore bs j) :
    (substSlots bs cs i)[j]? = some JSVal.undefined := by
  induction bs generalizing i j with
  | nil => simp at hj
  | cons b bs ih =>
      cases j with
      | zero =>
          have hb : b = JSVal.placeholder := by simpa using hj
          have h0 : phBefore (b :: bs) 0 = 0 := rfl
          rw [h0, Nat.add_zero] at hlen
          have hnone : cs[i]? = none := List.getElem?_eq_none_iff.mpr hlen
          simp [substSlots, hb, hnone]
      | succ j =>
          have hj' : bs[j]? = some JSVal.placeholder := by simpa using hj
          by_cases hb : b = JSVal.placeholder
          · have hcount : phBefore (b :: bs) (j + 1) = phBefore bs j + 1 := by
              simp [phBefore, List.take_succ_cons, hb]
            rw [hcount] at hlen
            have hlen' : cs.length ≤ (i + 1) + phBefore bs j := by omega
            simp [substSlots, hb, ih (i + 1) j hj' hlen']
          · have hcount : phBefore (b :: bs) (j + 1) = phBefore bs j := by
              simp [phBefore, List.take_succ_cons, hb]
            rw [hcount] at hlen
            simp [substSlots, hb, ih i j hj' hlen]

/-- C2: when a call supplies fewer runtime arguments than there are
placeholder slots, no error occurs: each unfilled placeholder position of
the final argument vector holds undefined, and that vector is what the
wrapped function receives. -/
theorem partial_missing_args_undefined :
    ∀ (fn : List JSVal → JSVal) (bs cs : List JSVal) (j : Nat),
      bs[j]? = some JSVal.placeholder →
      cs.length ≤ phBefore bs j →
      (finalArgs bs cs)[j]? = some JSVal.undefined ∧
      papply fn bs cs = fn (finalArgs bs cs) := by
  intro fn bs cs j hj hlen
  refine ⟨?_, rfl⟩
  have := substSlots_get_undefined bs cs 0 j hj (by simpa using hlen)
  simpa [finalArgs] using this

/-- Witness for C2: a single placeholder slot and no runtime arguments. -/
theorem partial_missing_args_undefined_witness :
    ([JSVal.placeholder][0]? = some JSVal.placeholder) ∧
    (([] : List JSVal).length ≤ phBefore [JSVal.placeholder] 0) ∧
    ((finalArgs [JSVal.placeholder] [])[0]? = some JSVal.undefined ∧
      papply (fun l => JSVal.number l.length) [JSVal.placeholder] []
        = (fun l => JSVal.number l.length) (finalArgs [JSVal.placeholder] [])) :=
  ⟨by decide, by decide,
   partial_missing_args_undefined (fun l => JSVal.number l.length)
     [JSVal.placeholder] [] 0 (by decide) (by decide)⟩

theorem substSlots_no_ph (bs cs : List JSVal) (i : Nat)
    (h : ∀ x ∈ bs, x ≠ JSVal.placeholder) :
    substSlots bs cs i = bs ++ cs.drop i := by
  induction bs generalizing i with
  | nil => rfl
  | cons b bs ih =>
      have hb : b ≠ JSVal.placeholder := h b (by simp)
      have hrest : ∀ x ∈ bs, x ≠ JSVal.placeholder := fun x hx => h x (by simp [hx])
      simp [substSlots, hb, ih i hrest]

/-- C3: a placeholder among the runtime arguments is never a substitution
point: when the bound slots contain no placeholder, every runtime argument
(placeholders included) is passed through to the wrapped function as a
literal value appended after the bound slots. -/
theorem runtime_placeholder_literal :
    ∀ (fn : List JSVal → JSVal) (bs cs : List JSVal),
      (∀ x ∈ bs, x ≠ JSVal.placeholder) →
      papply fn bs cs = fn (bs ++ cs) := by
  intro fn bs cs h
  simp [papply, finalArgs, substSlots_no_ph bs cs 0 h]

/-- Witness for C3: a placeholder supplied at call time reaches the wrapped
function verbatim. -/
theorem runtime_placeholder_literal_witness :
    (∀ x ∈ [JSVal.number 1], x ≠ JSVal.placeholder) ∧
    papply (fun l => JSVal.number l.length) [JSVal.number 1] [JSVal.placeholder]
      = (fun l => JSVal.number l.length) [JSVal.number 1, JSVal.placeholder] :=
  ⟨by decide,
   runtime_placeholder_literal (fun l => JSVal.number l.length)
     [JSVal.number 1] [JSVal.placeholder] (by decide)⟩

/-- C4 counterexample: with no bound slots and the placeholder supplied as
the lone runtime argument, the final argument vector handed to the wrapped
function holds the placeholder, contradicting the claim that no position
of that vector ever does. -/
theorem placeholder_reaches_fn_counterexample :
    finalArgs [] [JSVal.placeholder] = [JSVal.placeholder] ∧
    JSVal.placeholder ∈ finalArgs [] [JSVal.placeholder] := by
  exact ⟨rfl, by decide⟩

theorem substSlots_mem (bs cs : List JSVal) (i : Nat) (v : JSVal)
    (hv : v ∈ substSlots bs cs i) :
    v = JSVal.undefined ∨ v ∈ cs ∨ (v ∈ bs ∧ v ≠ JSVal.placeholder) := by
  induction bs generalizing i with
  | nil =>
      exact Or.inr (Or.inl (List.drop_subset i cs hv))
  | cons b bs ih =>
      by_cases hb : b = JSVal.placeholder
      · rw [substSlots, if_pos hb] at hv
        rcases List.mem_cons.mp hv with hv | hv
        · rcases hcs : cs[i]? with _ | a
          · rw [hcs] at hv
            exact Or.inl hv
          · rw [hcs] at hv
            exact Or.inr (Or.inl (hv ▸ List.getElem?_mem hcs))
        · rcases ih (i + 1) hv with h | h | ⟨h1, h2⟩
          · exact Or.inl h
          · exact Or.inr (Or.inl h)
          · exact Or.inr (Or.inr ⟨List.mem_cons_of_mem b h1, h2⟩)
      · rw [substSlots, if_neg hb] at hv
        rcases List.mem_cons.mp hv with hv | hv
        · exact Or.inr (Or.inr ⟨by simp [hv], hv ▸ hb⟩)
        · rcases ih i hv with h | h | ⟨h1, h2⟩
          · exact Or.inl h
          · exact Or.inr (Or.inl h)
          · exact Or.inr (Or.inr ⟨List.mem_cons_of_mem b h1, h2⟩)

/-- C4 amended: provided the placeholder does not occur among the runtime
arguments of a call, no position of the final argument vector handed to
the wrapped function holds the placeholder. -/
theorem no_placeholder_in_final_args :
    ∀ (bs cs : List JSVal), (∀ c ∈ cs, c ≠ JSVal.placeholder) →
      ∀ v ∈ finalArgs bs cs, v ≠ JSVal.placeholder := by
  intro bs cs hcs v hv
  rcases substSlots_mem bs cs 0 v hv with h | h | ⟨_, h2⟩
  · simp [h]
  · exact hcs v h
  · exact h2

/-- Witness for the amended C4: a mixed slot list and a concrete runtime
argument produce a placeholder-free final vector. -/
theorem no_placeholder_in_final_args_witness :
    (∀ c ∈ [JSVal.number 2], c ≠ JSVal.placeholder) ∧
    (∀ v ∈ finalArgs [JSVal.placeholder, JSVal.number 1] [JSVal.number 2],
      v ≠ JSVal.placeholder) :=
  ⟨by decide,
   no_placeholder_in_final_args [JSVal.placeholder, JSVal.number 1]
     [JSVal.number 2] (by decide)⟩

theorem partitionGo_eq_filter (pred : α → Nat → List α → Bool) (whole : List α)
    (l : List α) (i : Nat) :
    partitionGo pred whole l i =
      (((List.enumFrom i l).filter (fun p => pred p.2 p.1 whole)).map Prod.snd,
       ((List.enumFrom i l).filter (fun p => !pred p.2 p.1 whole)).map Prod.snd) := by
  induction l generalizing i with
  | nil => rfl
  | cons x xs ih =>
      by_cases hp : pred x i whole
      · simp [partitionGo, List.enumFrom, hp, ih (i + 1)]
      · simp [partitionGo, List.enumFrom, hp, ih (i + 1)]

theorem partitionGo_length (pred : α → Nat → List α → Bool) (whole : List α)
    (l : List α) (i : Nat) :
    (partitionGo pred whole l i).1.length + (partitionGo pred whole l i).2.length
      = l.length := by
  induction l generalizing i with
  | nil => rfl
  | cons x xs ih =>
      have h2 := ih (i + 1)
      by_cases hp : pred x i whole
      · simp only [partitionGo, hp, if_true, List.length_cons]
        omega
      · simp [partitionGo, hp]
        omega

/-- C9: partition returns the elements with a truthy predicate result (in
input order, with the index and the whole input passed to the predicate)
as its first list, the remaining elements in input order as its second
list, and the two lengths sum to the length of the input. -/
theorem partition_splits_input :
    ∀ (α : Type) (arr : List α) (pred : α → Nat → List α → Bool),
      (partitionJS arr pred).1
          = ((arr.enum.filter (fun p => pred p.2 p.1 arr)).map Prod.snd) ∧
      (partitionJS arr pred).2
          = ((arr.enum.filter (fun p => !pred p.2 p.1 arr)).map Prod.snd) ∧
      (partitionJS arr pred).1.length + (partitionJS arr pred).2.length
          = arr.length := by
  intro α arr pred
  have h := partitionGo_eq_filter pred arr arr 0
  have hl := partitionGo_length pred arr arr 0
  refine ⟨?_, ?_, hl⟩
  · rw [partitionJS, h, List.enum]
  · rw [partitionJS, h, List.enum]

/-- C8: in strict mode a single call supplying more arguments than the
remaining arity yields an arity mismatch and nothing else, a call
supplying fewer arguments returns a new accumulating curried function and
is not an error, and supplying one argument and then one argument to a
strict curried function of arity two invokes the wrapped function on the
two arguments. -/
theorem curry_strict_arity :
    ∀ (fn : List JSVal → JSVal) (a b c : JSVal),
      curryCall fn 2 true [] [a, b, c] = CurryOutcome.arityMismatch ∧
      (∀ (arity : Nat) (strict : Bool) (acc call : List JSVal),
        acc.length + call.length < arity →
        curryCall fn arity strict acc call = CurryOutcome.curried (acc ++ call)) ∧
      curryCall fn 2 true [] [a] = CurryOutcome.curried [a] ∧
      curryCall fn 2 true [a] [b] = CurryOutcome.invoked (fn [a, b]) := by
  intro fn a b c
  refine ⟨rfl, ?_, rfl, rfl⟩
  intro arity strict acc call hlt
  rw [curryCall]
  have hlen : (acc ++ call).length < arity := by
    simpa using hlt
  rw [if_neg (by omega), if_neg (by omega)]

/-- Witness for C8: the three behaviours at concrete arguments, with the
undershoot hypothesis discharged at a singleton call. -/
theorem curry_strict_arity_witness :
    curryCall (fun l => JSVal.number l.length) 2 true []
        [JSVal.number 1, JSVal.number 2, JSVal.number 3]
      = CurryOutcome.arityMismatch ∧
    (([] : List JSVal).length + [JSVal.number 1].length < 2 ∧
      curryCall (fun l => JSVal.number l.length) 2 true [] [JSVal.number 1]
        = CurryOutcome.curried [JSVal.number 1]) ∧
    curryCall (fun l => JSVal.number l.length) 2 true [JSVal.number 1]
        [JSVal.number 2]
      = CurryOutcome.invoked ((fun l => JSVal.number l.length)
          [JSVal.number 1, JSVal.number 2]) :=
  ⟨(curry_strict_arity (fun l => JSVal.number l.length) (JSVal.number 1)
      (JSVal.number 2) (JSVal.number 3)).1,
   ⟨by decide,
    (curry_strict_arity (fun l => JSVal.number l.length) (JSVal.number 1)
      (JSVal.number 2) (JSVal.number 3)).2.1 2 true [] [JSVal.number 1]
      (by decide)⟩,
   (curry_strict_arity (fun l => JSVal.number l.length) (JSVal.number 1)
      (JSVal.number 2) (JSVal.number 3)).2.2.2⟩

theorem TravPost.sub {heap seen h s} (P : TravPost heap seen h s) : seen ⊆ s := by
  obtain ⟨new, rfl⟩ := P.ext
  exact List.subset_append_left seen new

theorem TravPost.length_eq {heap seen h s} (P : TravPost heap seen h s) :
    h.length = heap.length := by
  have hx : ∀ k : Nat, h[k]? = none ↔ heap[k]? = none := by
    intro k
    have hk := P.heapEq k
    cases hn : heap[k]? with
    | none => rw [hn, Option.map_none'] at hk; simp [hk]
    | some n => rw [hn, Option.map_some'] at hk; simp [hk]
  apply le_antisymm
  · exact List.getElem?_eq_none_iff.mp
      ((hx heap.length).mpr (List.getElem?_eq_none_iff.mpr le_rfl))
  · exact List.getElem?_eq_none_iff.mp
      ((hx h.length).mp (List.getElem?_eq_none_iff.mpr le_rfl))

theorem TravPost.getSome {heap seen h s} (P : TravPost heap seen h s) {k : Nat}
    {n : HNode} (hk : heap[k]? = some n) :
    ∃ m, h[k]? = some m ∧ m.props = n.props ∧ m.isFunc = n.isFunc := by
  have := P.heapEq k
  rw [hk] at this
  by_cases hc : k ∈ s ∧ k ∉ seen
  · exact ⟨{ n with frozen := true }, by rw [this]; simp [hc], rfl, rfl⟩
  · exact ⟨n, by rw [this]; simp [hc], rfl, rfl⟩

theorem TravPost.getSome' {heap seen h s} (P : TravPost heap seen h s) {k : Nat}
    {m : HNode} (hk : h[k]? = some m) :
    ∃ n, heap[k]? = some n ∧ n.props = m.props ∧ n.isFunc = m.isFunc := by
  have h1 := P.heapEq k
  rw [hk] at h1
  cases hn : heap[k]? with
  | none => rw [hn] at h1; cases h1
  | some n =>
      rw [hn, Option.map_some'] at h1
      have h2 := Option.some_inj.mp h1
      refine ⟨n, rfl, ?_, ?_⟩ <;>
        · rw [h2]
          by_cases hc : k ∈ s ∧ k ∉ seen <;> simp [hc]

theorem TravPost.elig {heap seen h s} (P : TravPost heap seen h s) (v : HVal) :
    eligible h v = eligible heap v := by
  cases v with
  | ref i =>
      rw [eligible, eligible]
      have := P.heapEq i
      cases hn : heap[i]? with
      | none => rw [hn, Option.map_none'] at this; rw [this]
      | some n =>
          rw [hn, Option.map_some'] at this
          rw [this]
          by_cases hc : i ∈ s ∧ i ∉ seen <;> simp [hc]
  | undef => rfl
  | nullv => rfl
  | prim => rfl

theorem TravPost.wf {heap seen h s} (P : TravPost heap seen h s)
    (hwf : WFHeap heap) : WFHeap h := by
  intro m hm p hp
  obtain ⟨k, hk⟩ := List.mem_iff_getElem?.mp hm
  obtain ⟨n, hn, hprops, _⟩ := P.getSome' hk
  rw [← hprops] at hp
  have := hwf n (List.mem_iff_getElem?.mpr ⟨k, hn⟩) p hp
  rwa [P.length_eq]

theorem TravPost.closedUnder {heap seen h s} (P : TravPost heap seen h s)
    {R : Nat → Prop} (hc : ClosedUnder heap R) : ClosedUnder h R := by
  intro j hj m hm p hp i hi
  obtain ⟨n, hn, hprops, _⟩ := P.getSome' hm
  rw [← hprops] at hp
  rw [P.elig] at hi
  exact hc j hj n hn p hp i hi

theorem TravPost.rfl_post (heap : Heap) (seen : List Nat) (hnd : seen.Nodup)
    (hbd : ∀ j ∈ seen, j < heap.length) : TravPost heap seen heap seen := by
  refine ⟨⟨[], by simp⟩, ?_, hnd, hbd⟩
  intro k
  cases heap[k]? <;> simp

theorem TravPost.trans {heap seen h₁ s₁ h₂ s₂} (P : TravPost heap seen h₁ s₁)
    (Q : TravPost h₁ s₁ h₂ s₂) : TravPost heap seen h₂ s₂ := by
  obtain ⟨n₁, hn₁⟩ := P.ext
  obtain ⟨n₂, hn₂⟩ := Q.ext
  refine ⟨⟨n₁ ++ n₂, by rw [hn₂, hn₁, List.append_assoc]⟩, ?_, Q.nodup, ?_⟩
  · intro k
    rw [Q.heapEq, P.heapEq]
    cases heap[k]? with
    | none => rfl
    | some n =>
        simp only [Option.map_some']
        by_cases hseen : k ∈ seen
        · have hks1 : k ∈ s₁ := P.sub hseen
          have hks2 : k ∈ s₂ := Q.sub hks1
          simp [hseen, hks1]
        · by_cases hks1 : k ∈ s₁
          · have hks2 : k ∈ s₂ := Q.sub hks1
            simp [hseen, hks1, hks2]
          · by_cases hks2 : k ∈ s₂
            · simp [hseen, hks1, hks2]
            · simp [hseen, hks1, hks2]
  · intro j hj
    have := Q.bound j hj
    rwa [P.length_eq] at this

theorem seen_length_le (heap : Heap) (seen : List Nat) (hnd : seen.Nodup)
    (hbd : ∀ j ∈ seen, j < heap.length) : seen.length ≤ heap.length := by
  have h1 : seen.toFinset.card = seen.length := List.toFinset_card_of_nodup hnd
  have h2 : seen.toFinset ⊆ Finset.range heap.length := by
    intro x hx
    simp only [List.mem_toFinset] at hx
    exact Finset.mem_range.mpr (hbd x hx)
  have h3 := Finset.card_le_card h2
  rw [h1, Finset.card_range] at h3
  exact h3

theorem eligible_elim {heap : Heap} {v : HVal} {i : Nat}
    (h : eligible heap v = some i) :
    v = HVal.ref i ∧ ∃ n, heap[i]? = some n ∧ n.isFunc = false := by
  cases v with
  | ref j =>
      cases hj : heap[j]? with
      | none => simp [eligible, hj] at h
      | some n =>
          by_cases hf : n.isFunc = true
          · simp [eligible, hj, hf] at h
          · simp only [eligible, hj, hf, if_false] at h
            have hij : j = i := by simpa using h
            subst hij
            exact ⟨rfl, n, hj, by simpa using hf⟩
  | undef => cases h
  | nullv => cases h
  | prim => cases h

theorem eligible_lt {heap : Heap} {v : HVal} {i : Nat}
    (h : eligible heap v = some i) : i < heap.length := by
  obtain ⟨-, n, hn, -⟩ := eligible_elim h
  by_contra hlt
  rw [List.getElem?_eq_none_iff.mpr (Nat.le_of_not_lt hlt)] at hn
  cases hn

theorem push_post (heap : Heap) (seen : List Nat) (id : Nat) {n : HNode}
    (hn : heap[id]? = some n) (hnd : seen.Nodup)
    (hbd : ∀ j ∈ seen, j < heap.length) (hmem : id ∉ seen)
    (hid : id < heap.length) :
    TravPost heap seen (setFrozen heap id) (seen ++ [id]) := by
  have hset : setFrozen heap id = heap.set id { n with frozen := true } := by
    rw [setFrozen, hn]
  refine ⟨⟨[id], rfl⟩, ?_, ?_, ?_⟩
  · intro k
    by_cases hk : k = id
    · subst hk
      rw [hset, List.getElem?_set_eq_of_lt _ hid, hn, Option.map_some',
        if_pos ⟨by simp, hmem⟩]
    · rw [hset, List.getElem?_set_ne (fun h => hk h.symm)]
      have hcond : ¬(k ∈ seen ++ [id] ∧ k ∉ seen) := by
        rintro ⟨h1, h2⟩
        rcases List.mem_append.mp h1 with h | h
        · exact h2 h
        · exact hk (by simpa using h)
      cases heap[k]? with
      | none => rfl
      | some m => rw [Option.map_some', if_neg hcond]
  · simp [List.nodup_append, hnd, hmem]
  · intro j hj
    rcases List.mem_append.mp hj with h | h
    · exact hbd j h
    · have hji : j = id := by simpa using h
      rw [hji]
      exact hid

theorem immuVals_spec (F : Nat)
    (step : Heap → List Nat → Nat → Option (Heap × List Nat))
    (hstep : ∀ heap seen id, WFHeap heap → seen.Nodup →
      (∀ j ∈ seen, j < heap.length) → id < heap.length →
      heap.length + 1 ≤ F + seen.length →
      ∃ h s, step heap seen id = some (h, s) ∧ TravPost heap seen h s ∧
        id ∈ s ∧ NewClosed heap seen s ∧
        (∀ R : Nat → Prop, ClosedUnder heap R → (∀ k ∈ seen, R k) → R id →
          ∀ k ∈ s, R k)) :
    ∀ (vs : List HVal) (heap : Heap) (seen : List Nat), WFHeap heap →
      seen.Nodup → (∀ j ∈ seen, j < heap.length) →
      heap.length + 1 ≤ F + seen.length →
      ∃ h s, immuVals step heap seen vs = some (h, s) ∧ TravPost heap seen h s ∧
        (∀ v ∈ vs, ∀ i, eligible heap v = some i → i ∈ s) ∧
        NewClosed heap seen s ∧
        (∀ R : Nat → Prop, ClosedUnder heap R → (∀ k ∈ seen, R k) →
          (∀ v ∈ vs, ∀ i, eligible heap v = some i → R i) → ∀ k ∈ s, R k) := by
  intro vs
  induction vs with
  | nil =>
      intro heap seen hwf hnd hbd hfuel
      refine ⟨heap, seen, rfl, TravPost.rfl_post heap seen hnd hbd, ?_, ?_, ?_⟩
      · intro v hv
        cases hv
      · intro k hk hnk
        exact absurd hk hnk
      · intro R _ hseen _ k hk
        exact hseen k hk
  | cons v vs ih =>
      intro heap seen hwf hnd hbd hfuel
      cases hv : eligible heap v with
      | none =>
          obtain ⟨h, s, heq, P, EL, NC, SND⟩ := ih heap seen hwf hnd hbd hfuel
          refine ⟨h, s, ?_, P, ?_, NC, ?_⟩
          · simp only [immuVals, hv]
            exact heq
          · intro w hw i hi
            rcases List.mem_cons.mp hw with hw | hw
            · subst hw
              rw [hv] at hi
              cases hi
            · exact EL w hw i hi
          · intro R hc hseen hall k hk
            refine SND R hc hseen ?_ k hk
            intro w hw i hi
            exact hall w (List.mem_cons_of_mem v hw) i hi
      | some i =>
          have hilt : i < heap.length := eligible_lt hv
          obtain ⟨h₁, s₁, heq₁, P₁, hi₁, NC₁, SND₁⟩ :=
            hstep heap seen i hwf hnd hbd hilt hfuel
          obtain ⟨new₁, hnew₁⟩ := P₁.ext
          have hfuel₂ : h₁.length + 1 ≤ F + s₁.length := by
            rw [P₁.length_eq, hnew₁]
            have : seen.length ≤ (seen ++ new₁).length := by simp
            omega
          have hbd₁ : ∀ j ∈ s₁, j < h₁.length := by
            intro j hj
            rw [P₁.length_eq]
            exact P₁.bound j hj
          obtain ⟨h₂, s₂, heq₂, P₂, EL₂, NC₂, SND₂⟩ :=
            ih h₁ s₁ (P₁.wf hwf) P₁.nodup hbd₁ hfuel₂
          refine ⟨h₂, s₂, ?_, P₁.trans P₂, ?_, ?_, ?_⟩
          · simp only [immuVals, hv, heq₁]
            exact heq₂
          · intro w hw j hj
            rcases List.mem_cons.mp hw with hw | hw
            · subst hw
              rw [hv] at hj
              have : i = j := Option.some_inj.mp hj
              subst this
              exact P₂.sub hi₁
            · rw [← P₁.elig] at hj
              exact EL₂ w hw j hj
          · intro k hk hnk n hn p hp j hj
            by_cases hks₁ : k ∈ s₁
            · exact P₂.sub (NC₁ k hks₁ hnk n hn p hp j hj)
            · obtain ⟨m, hm, hprops, -⟩ := P₁.getSome hn
              rw [← hprops] at hp
              rw [← P₁.elig] at hj
              exact NC₂ k hk hks₁ m hm p hp j hj
          · intro R hc hseen hall k hk
            have hs₁R : ∀ k ∈ s₁, R k :=
              SND₁ R hc hseen (hall v (by simp) i hv)
            refine SND₂ R (P₁.closedUnder hc) hs₁R ?_ k hk
            intro w hw j hj
            rw [P₁.elig] at hj
            exact hall w (List.mem_cons_of_mem v hw) j hj

theorem immuStep_spec (F : Nat) :
    ∀ (heap : Heap) (seen : List Nat) (id : Nat), WFHeap heap → seen.Nodup →
      (∀ j ∈ seen, j < heap.length) → id < heap.length →
      heap.length + 1 ≤ F + seen.length →
      ∃ h s, immuStep F heap seen id = some (h, s) ∧ TravPost heap seen h s ∧
        id ∈ s ∧ NewClosed heap seen s ∧
        (∀ R : Nat → Prop, ClosedUnder heap R → (∀ k ∈ seen, R k) → R id →
          ∀ k ∈ s, R k) := by
  induction F with
  | zero =>
      intro heap seen id hwf hnd hbd hid hfuel
      have := seen_length_le heap seen hnd hbd
      omega
  | succ F ih =>
      intro heap seen id hwf hnd hbd hid hfuel
      by_cases hmem : id ∈ seen
      · refine ⟨heap, seen, by simp [immuStep, hmem],
          TravPost.rfl_post heap seen hnd hbd, hmem, ?_, ?_⟩
        · intro k hk hnk
          exact absurd hk hnk
        · intro R _ hseen _ k hk
          exact hseen k hk
      · obtain ⟨n, hn⟩ : ∃ n, heap[id]? = some n := by
          cases hg : heap[id]? with
          | none =>
              rw [List.getElem?_eq_none_iff] at hg
              omega
          | some n => exact ⟨n, rfl⟩
        have Ppush : TravPost heap seen (setFrozen heap id) (seen ++ [id]) :=
          push_post heap seen id hn hnd hbd hmem hid
        have hbd₁ : ∀ j ∈ seen ++ [id], j < (setFrozen heap id).length := by
          intro j hj
          rw [Ppush.length_eq]
          exact Ppush.bound j hj
        have hfuel₁ :
            (setFrozen heap id).length + 1 ≤ F + (seen ++ [id]).length := by
          rw [Ppush.length_eq]
          simp only [List.length_append, List.length_cons, List.length_nil]
          omega
        obtain ⟨h₂, s₂, heq₂, P₂, EL₂, NC₂, SND₂⟩ :=
          immuVals_spec F (immuStep F) ih (n.props.map HProp.value)
            (setFrozen heap id) (seen ++ [id]) (Ppush.wf hwf) Ppush.nodup
            hbd₁ hfuel₁
        have hido : id ∈ s₂ := P₂.sub (by simp)
        refine ⟨h₂, s₂, ?_, Ppush.trans P₂, hido, ?_, ?_⟩
        · simp only [immuStep, hmem, if_false, hn]
          exact heq₂
        · intro k hk hnk m hm p hp j hj
          by_cases hkid : k = id
          · subst hkid
            have hmn : m = n := by
              rw [hn] at hm
              exact (Option.some_inj.mp hm).symm
            subst hmn
            have hval : p.value ∈ m.props.map HProp.value :=
              List.mem_map_of_mem HProp.value hp
            rw [← Ppush.elig] at hj
            exact EL₂ p.value hval j hj
          · have hks₁ : k ∉ seen ++ [id] := by
              intro hc
              rcases List.mem_append.mp hc with h | h
              · exact hnk h
              · exact hkid (by simpa using h)
            obtain ⟨m', hm', hprops, -⟩ := Ppush.getSome hm
            rw [← hprops] at hp
            rw [← Ppush.elig] at hj
            exact NC₂ k hk hks₁ m' hm' p hp j hj
        · intro R hc hseen hRid k hk
          have hs₁R : ∀ k ∈ seen ++ [id], R k := by
            intro k' hk'
            rcases List.mem_append.mp hk' with h | h
            · exact hseen k' h
            · rw [(by simpa using h : k' = id)]
              exact hRid
          refine SND₂ R (Ppush.closedUnder hc) hs₁R ?_ k hk
          intro w hw j hj
          obtain ⟨p, hp, hpv⟩ := List.mem_map.mp hw
          rw [Ppush.elig] at hj
          rw [← hpv] at hj
          exact hc id hRid n hn p hp j hj

theorem immutableRun_spec (heap : Heap) (root : Nat) (hwf : WFHeap heap)
    (hroot : root < heap.length) :
    ∃ h s, immutableRun heap root = some (h, s) ∧ TravPost heap [] h s ∧
      (∀ k, k ∈ s ↔ Processed heap root k) := by
  obtain ⟨h, s, heq, P, hidmem, NC, SND⟩ :=
    immuStep_spec (heap.length + 1) heap [] root hwf (by simp) (by simp) hroot
      (by simp)
  refine ⟨h, s, heq, P, ?_⟩
  intro k
  constructor
  · intro hk
    refine SND (Processed heap root) ?_ (by simp) Processed.base k hk
    intro j hj m hm p hp i hi
    exact Processed.step hj hm hp hi
  · intro hp
    induction hp with
    | base => exact hidmem
    | step hj hm hpp hi ihp => exact NC _ ihp (by simp) _ hm _ hpp _ hi

theorem TravPost.heapEq_nil {heap h : Heap} {s : List Nat}
    (P : TravPost heap [] h s) (k : Nat) :
    h[k]? = (heap[k]?).map
      (fun n => if k ∈ s then { n with frozen := true } else n) := by
  have := P.heapEq k
  simpa using this

theorem processed_lt {heap : Heap} {root k : Nat} (hroot : root < heap.length)
    (hp : Processed heap root k) : k < heap.length := by
  induction hp with
  | base => exact hroot
  | step _ _ _ hi _ => exact eligible_lt hi

theorem node_frozen_eta (n : HNode) (hf : n.frozen = true) :
    { n with frozen := true } = n := by
  cases n
  simp at hf
  rw [hf]

theorem processed_congr {heap : Heap} {seen : List Nat} {h : Heap}
    {s : List Nat} (P : TravPost heap seen h s) (root : Nat) :
    ∀ k, Processed h root k ↔ Processed heap root k := by
  intro k
  constructor
  · intro hp
    induction hp with
    | base => exact Processed.base
    | step hj hm hpp hi ihp =>
        obtain ⟨n, hn, hprops, -⟩ := P.getSome' hm
        rw [← hprops] at hpp
        rw [P.elig] at hi
        exact Processed.step ihp hn hpp hi
  · intro hp
    induction hp with
    | base => exact Processed.base
    | step hj hn hpp hi ihp =>
        obtain ⟨m, hm, hprops, -⟩ := P.getSome hn
        rw [← hprops] at hpp
        rw [← P.elig] at hi
        exact Processed.step ihp hm hpp hi

/-- C5: for every well-formed object graph, cyclic and diamond-shaped ones
included, the freezer terminates (the run yields a result within the
explicit fuel bound) and its traversal processes each distinct object
identity exactly once: the seen list has no duplicates and holds exactly
the identities the traversal reaches. -/
theorem immutable_terminates_visits_once :
    ∀ (heap : Heap) (root : Nat), WFHeap heap → root < heap.length →
      ∃ h s, immutableRun heap root = some (h, s) ∧ s.Nodup ∧
        (∀ k, k ∈ s ↔ Processed heap root k) := by
  intro heap root hwf hroot
  obtain ⟨h, s, heq, P, hiff⟩ := immutableRun_spec heap root hwf hroot
  exact ⟨h, s, heq, P.nodup, hiff⟩

/-- Witness for C5: the self-referential one-node heap. -/
theorem immutable_terminates_visits_once_witness :
    WFHeap cycHeap ∧ 0 < cycHeap.length ∧
    (∃ h s, immutableRun cycHeap 0 = some (h, s) ∧ s.Nodup ∧
      (∀ k, k ∈ s ↔ Processed cycHeap 0 k)) :=
  ⟨by decide, by decide,
   immutable_terminates_visits_once cycHeap 0 (by decide) (by decide)⟩

/-- C6 counterexample: in hiddenHeap the only route to node 1 is a
non-enumerable own property of the root, node 1 starts out unfrozen, and
the freezer nonetheless freezes it, refuting the claim that the traversal
recurses into exactly the enumerable properties and that non-enumerable
properties are not frozen by it (the code walks
Object.getOwnPropertyNames, which includes non-enumerable own
properties). -/
theorem enumerable_only_counterexample :
    hiddenHeap[0]? = some ⟨false, false, [⟨"hidden", false, HVal.ref 1⟩]⟩ ∧
    frozenAt hiddenHeap 1 = false ∧
    (immutableRun hiddenHeap 0).map (fun r => frozenAt r.1 1) = some true := by
  decide

/-- C6 amended: after the freezer returns, every identity the traversal
reaches through own-property values admitted by the recursion guard,
enumerable or not, is frozen, and every identity it does not reach, which
includes nodes referenced only from inherited properties, has its node
left untouched. -/
theorem own_reachable_frozen :
    ∀ (heap : Heap) (root : Nat), WFHeap heap → root < heap.length →
      ∃ h s, immutableRun heap root = some (h, s) ∧
        (∀ k, Processed heap root k → frozenAt h k = true) ∧
        (∀ k, ¬Processed heap root k → h[k]? = heap[k]?) := by
  intro heap root hwf hroot
  obtain ⟨h, s, heq, P, hiff⟩ := immutableRun_spec heap root hwf hroot
  refine ⟨h, s, heq, ?_, ?_⟩
  · intro k hk
    have hks : k ∈ s := (hiff k).mpr hk
    have hklt : k < heap.length := processed_lt hroot hk
    obtain ⟨n, hn⟩ : ∃ n, heap[k]? = some n := by
      cases hg : heap[k]? with
      | none => rw [List.getElem?_eq_none_iff] at hg; omega
      | some n => exact ⟨n, rfl⟩
    have hk1 := P.heapEq_nil k
    rw [hn, Option.map_some', if_pos hks] at hk1
    simp [frozenAt, hk1]
  · intro k hk
    have hks : k ∉ s := fun hc => hk ((hiff k).mp hc)
    have hk1 := P.heapEq_nil k
    cases hg : heap[k]? with
    | none => rw [hg, Option.map_none'] at hk1; rw [hk1]
    | some n => rw [hg, Option.map_some', if_neg hks] at hk1; rw [hk1]

/-- Witness for the amended C6: the non-enumerable-property heap. -/
theorem own_reachable_frozen_witness :
    WFHeap hiddenHeap ∧ 0 < hiddenHeap.length ∧
    (∃ h s, immutableRun hiddenHeap 0 = some (h, s) ∧
      (∀ k, Processed hiddenHeap 0 k → frozenAt h k = true) ∧
      (∀ k, ¬Processed hiddenHeap 0 k → h[k]? = hiddenHeap[k]?)) :=
  ⟨by decide, by decide,
   own_reachable_frozen hiddenHeap 0 (by decide) (by decide)⟩

/-- C7 counterexample: null is a value (a primitive), yet immutable
applied to null is an error in every ECMAScript edition
(Object.getOwnPropertyNames throws a TypeError on null), refuting the
claim that immutable is error-free on every value; undefined behaves the
same. -/
theorem immutable_null_error_counterexample :
    immutableVal [] HVal.nullv = none ∧ immutableVal [] HVal.undef = none :=
  ⟨rfl, rfl⟩

/-- C7 amended: on a well-formed object root the freezer is idempotent (a
second invocation returns the same heap unchanged), the value it returns
is always the very reference it was given, an already fully frozen heap is
left untouched, and a primitive other than null or undefined is a no-op;
immutable applied to null or undefined raises a TypeError. -/
theorem immutable_idempotent_noop :
    (∀ (heap : Heap) (root : Nat) (h₁ : Heap), WFHeap heap →
      root < heap.length → immutableHeap heap root = some h₁ →
      immutableHeap h₁ root = some h₁) ∧
    (∀ (heap : Heap) (v : HVal) (r : Heap × HVal),
      immutableVal heap v = some r → r.2 = v) ∧
    (∀ (heap : Heap) (root : Nat), WFHeap heap → root < heap.length →
      (∀ n ∈ heap, n.frozen = true) → immutableHeap heap root = some heap) ∧
    (∀ heap : Heap, immutableVal heap HVal.prim = some (heap, HVal.prim)) ∧
    (∀ heap : Heap, immutableVal heap HVal.nullv = none ∧
      immutableVal heap HVal.undef = none) := by
  refine ⟨?_, ?_, ?_, fun heap => rfl, fun heap => ⟨rfl, rfl⟩⟩
  · intro heap root h₁ hwf hroot h1eq
    obtain ⟨h, s, heq, P, hiff⟩ := immutableRun_spec heap root hwf hroot
    rw [immutableHeap, heq, Option.map_some'] at h1eq
    have hh : h₁ = h := (Option.some_inj.mp h1eq).symm
    subst hh
    have hwf₁ : WFHeap h₁ := P.wf hwf
    have hroot₁ : root < h₁.length := by rw [P.length_eq]; exact hroot
    obtain ⟨h₂, s₂, heq₂, P₂, hiff₂⟩ := immutableRun_spec h₁ root hwf₁ hroot₁
    have hfix : h₂ = h₁ := by
      apply List.ext_getElem?_iff.mpr
      intro k
      have hk2 := P₂.heapEq_nil k
      by_cases hks₂ : k ∈ s₂
      · have hpk : Processed heap root k :=
          (processed_congr P root k).mp ((hiff₂ k).mp hks₂)
        have hks : k ∈ s := (hiff k).mpr hpk
        have hklt : k < heap.length := processed_lt hroot hpk
        obtain ⟨n, hn⟩ : ∃ n, heap[k]? = some n := by
          cases hg : heap[k]? with
          | none => rw [List.getElem?_eq_none_iff] at hg; omega
          | some n => exact ⟨n, rfl⟩
        have hk1 := P.heapEq_nil k
        rw [hn, Option.map_some', if_pos hks] at hk1
        rw [hk2, hk1, Option.map_some', if_pos hks₂]
      · rw [hk2]
        cases hg : h₁[k]? with
        | none => rw [Option.map_none']
        | some m => rw [Option.map_some', if_neg hks₂]
    rw [immutableHeap, heq₂, Option.map_some', hfix]
  · intro heap v r hr
    cases v with
    | undef => cases hr
    | nullv => cases hr
    | prim =>
        rw [immutableVal] at hr
        rw [← Option.some_inj.mp hr]
    | ref id =>
        rw [immutableVal] at hr
        cases hg : immutableRun heap id with
        | none => rw [hg] at hr; cases hr
        | some p =>
            rw [hg, Option.map_some'] at hr
            rw [← Option.some_inj.mp hr]
  · intro heap root hwf hroot hfr
    obtain ⟨h, s, heq, P, hiff⟩ := immutableRun_spec heap root hwf hroot
    have hfix : h = heap := by
      apply List.ext_getElem?_iff.mpr
      intro k
      have hk1 := P.heapEq_nil k
      cases hg : heap[k]? with
      | none => rw [hg, Option.map_none'] at hk1; rw [hk1]
      | some n =>
          rw [hg, Option.map_some'] at hk1
          by_cases hks : k ∈ s
          · rw [if_pos hks] at hk1
            rw [hk1]
            have hnf : n.frozen = true :=
              hfr n (List.mem_iff_getElem?.mpr ⟨k, hg⟩)
            rw [node_frozen_eta n hnf]
          · rw [if_neg hks] at hk1
            rw [hk1]
    rw [immutableHeap, heq, Option.map_some', hfix]

/-- Witness for the amended C7: the self-referential heap, frozen once and
then frozen again without change. -/
theorem immutable_idempotent_noop_witness :
    WFHeap cycHeap ∧ 0 < cycHeap.length ∧
    immutableHeap cycHeap 0
      = some [⟨false, true, [⟨"self", true, HVal.ref 0⟩]⟩] ∧
    immutableHeap [⟨false, true, [⟨"self", true, HVal.ref 0⟩]⟩] 0
      = some [⟨false, true, [⟨"self", true, HVal.ref 0⟩]⟩] :=
  ⟨by decide, by decide, by decide,
   immutable_idempotent_noop.1 cycHeap 0
     [⟨false, true, [⟨"self", true, HVal.ref 0⟩]⟩]
     (by decide) (by decide) (by decide)⟩

/-- C10: the recursion guard only admits values of object type that are
not null, so the freezer never descends into a function-valued property:
a function node other than the root is left completely untouched by the
run and in particular keeps its previous frozen flag. -/
theorem function_prop_not_frozen :
    ∀ (heap : Heap) (root k : Nat), WFHeap heap → root < heap.length →
      k ≠ root → isFuncAt heap k = true →
      ∃ h s, immutableRun heap root = some (h, s) ∧ h[k]? = heap[k]? ∧
        frozenAt h k = frozenAt heap k := by
  intro heap root k hwf hroot hkr hfk
  obtain ⟨h, s, heq, P, hiff⟩ := immutableRun_spec heap root hwf hroot
  have hnp : ¬Processed heap root k := by
    intro hp
    cases hp with
    | base => exact hkr rfl
    | step hj hn hpp hi =>
        obtain ⟨-, n, hn2, hf⟩ := eligible_elim hi
        simp [isFuncAt, hn2, hf] at hfk
  have hks : k ∉ s := fun hc => hnp ((hiff k).mp hc)
  have hk1 := P.heapEq_nil k
  have hsame : h[k]? = heap[k]? := by
    cases hg : heap[k]? with
    | none => rw [hg, Option.map_none'] at hk1; rw [hk1]
    | some n => rw [hg, Option.map_some', if_neg hks] at hk1; rw [hk1]
  exact ⟨h, s, heq, hsame, by simp only [frozenAt, hsame]⟩

/-- Witness for C10: the heap with a single function-valued property. -/
theorem function_prop_not_frozen_witness :
    WFHeap fnPropHeap ∧ 0 < fnPropHeap.length ∧ (1 : Nat) ≠ 0 ∧
    isFuncAt fnPropHeap 1 = true ∧
    (∃ h s, immutableRun fnPropHeap 0 = some (h, s) ∧
      h[1]? = fnPropHeap[1]? ∧ frozenAt h 1 = frozenAt fnPropHeap 1) :=
  ⟨by decide, by decide, by decide, by decide,
   function_prop_not_frozen fnPropHeap 0 1 (by decide) (by decide)
     (by decide) (by decide)⟩
